import Mathlib

/-!
Verification development for the dependency-mapping pipeline (`dep_map`).

The Python sources are shallowly embedded as executable Lean definitions:

* `resolver.py`  — macro-variable maps, `&var` substitution, table-name
  resolution, Snowflake write-scope classification;
* `parser.py`    — rule application and line-number computation;
* `db.py` / `scanner.py` — the per-file write sequence against the SQLite
  store, modelled as an explicit action list with commit points;
* `queries.py`   — the depth-capped recursive impact traversals, modelled as
  level-by-level frontier expansion (the least fixpoint of the recursive CTE).

Python dicts are modelled as functions into `Option`, strings as Lean
`String`s (ASCII case folding via explicit `Char.toLower`/`Char.toUpper`
maps, which agree with Python `str.lower`/`str.upper` on the ASCII corpus).
Engine-family terminology of the specification maps to the code's strings:
relational-engine-A = "oracle", relational-engine-B = "snowflake",
local-work = "work".
-/

/-- ASCII-style lowercase of a string, character by character
(Python `str.lower` on ASCII input). -/
def strLower (s : String) : String := String.mk (s.toList.map Char.toLower)

/-- ASCII-style uppercase of a string, character by character
(Python `str.upper` on ASCII input). -/
def strUpper (s : String) : String := String.mk (s.toList.map Char.toUpper)

/-- Python regex `\w` on ASCII: letters, digits, underscore. -/
def isWordChar (c : Char) : Bool := c.isAlphanum || c = '_'

/-- Whether the `&name` reference beginning at `rest` is followed by the
optional trailing dot consumed by the regex `&(\w+)\.?`. -/
def substHasDot (rest : List Char) : Bool :=
  (rest.drop (rest.takeWhile isWordChar).length).head? == some '.'

/-- The text following the macro-variable name in a `&name` reference:
drops the name and, when the name is delimited by a trailing dot
(the `\.?` part of the regex `&(\w+)\.?`), also that dot. -/
def substTail (rest : List Char) : List Char :=
  let after := rest.drop (rest.takeWhile isWordChar).length
  if substHasDot rest then after.drop 1 else after

theorem substTail_length_le (rest : List Char) : (substTail rest).length ≤ rest.length := by
  unfold substTail
  split <;> simp only [List.length_drop] <;> omega

/-- Left-to-right, non-overlapping substitution of `&name` / `&name.`
references, as performed by `re.sub(r'&(\w+)\.?', replacer, text)` in
`resolver._substitute_macro_vars`: a resolved variable is replaced by its
value (the delimiter dot is consumed), an unresolved reference is left
intact (`m.group(0)`). -/
def substListGo (mv : String → Option String) : Nat → List Char → List Char
  | _, [] => []
  | 0, l => l
  | fuel + 1, c :: rest =>
    if c = '&' ∧ rest.takeWhile isWordChar ≠ [] then
      (match mv (strLower (String.mk (rest.takeWhile isWordChar))) with
       | some v => v.toList
       | none => '&' :: rest.takeWhile isWordChar ++ (if substHasDot rest then ['.'] else []))
        ++ substListGo mv fuel (substTail rest)
    else
      c :: substListGo mv fuel rest

/-- The scan consumes at least one character per step, so `l.length` fuel
always suffices (`substTail rest` is no longer than `rest`, by
`substTail_length_le`). -/
def substList (mv : String → Option String) (l : List Char) : List Char :=
  substListGo mv l.length l

/-- `resolver._substitute_macro_vars`: replace `&variable` references with
resolved values from the file-local macro-variable map. -/
def substitute_macro_vars (mv : String → Option String) (text : String) : String :=
  String.mk (substList mv text.toList)

/-- One parsed `%LET` statement (the parser's match dict restricted to the
fields `resolver.resolve_macro_vars` reads). -/
structure LetStmt where
  var : String
  value : String
deriving DecidableEq

/-- `resolver.resolve_macro_vars`: fold the `%LET` statements in document
order into a map from lower-cased variable name to value; a later
assignment overwrites an earlier one. -/
def resolve_macro_vars (let_statements : List LetStmt) : String → Option String :=
  let_statements.foldl
    (fun m st => fun k => if k = strLower st.var then some st.value else m k)
    (fun _ => none)

/-- The lowercase character sequence of the connection-defaults macro name
searched for by `resolver.apply_datalab_connections`. -/
def datalabPat : List Char := "%datalab_connections".toList

/-- Whether the regex `(?i)%datalab_connections\b` matches at the start of
`l`: the pattern text, case-insensitively, followed by a word boundary. -/
def datalabAt (l : List Char) : Bool :=
  ((l.take datalabPat.length).map Char.toLower == datalabPat) &&
    (match l.drop datalabPat.length with
     | [] => true
     | c :: _ => !(isWordChar c))

/-- Whether `re.search(r'(?i)%datalab_connections\b', source)` finds a
match anywhere in the source. -/
def hasDatalabCall (source : String) : Bool :=
  source.toList.tails.any datalabAt

/-- `resolver.apply_datalab_connections`: when the connection-defaults
macro is invoked in the source, inject each default binding whose
lower-cased variable name is not yet present; an explicit `%LET`
assignment already in the map is never overwritten. -/
def apply_datalab_connections (source : String) (macro_vars : String → Option String)
    (datalab_defaults : List (String × String)) : String → Option String :=
  if hasDatalabCall source then
    datalab_defaults.foldl
      (fun m p =>
        if m (strLower p.1) = none then
          (fun k => if k = strLower p.1 then some p.2 else m k)
        else m)
      macro_vars
  else macro_vars

/-- A `libname_map` entry as built by `resolver.build_libname_map`: the
engine family decides which fields are recorded (schema and path for
"oracle", database and schema for "snowflake", path for "base"). -/
inductive LibnameEntry
  | oracle (path schema : String)
  | snowflake (database schema : String)
  | base (path : String)
deriving DecidableEq

/-- `resolver.resolve_table_name`: substitute macro variables in the raw
libref and table (a missing one defaults to `"unknown"`), then resolve in
priority order — parsed libname map, configured `known_librefs`, the
literal `work` libref, and a final `"unknown"` fallback. An alias that
still contains an unresolved `&` after substitution short-circuits to
`unknown.<table>`. -/
def resolve_table_name (raw_libref raw_table : Option String)
    (macro_vars : String → Option String)
    (libname_map : String → Option LibnameEntry)
    (known_librefs : String → Option String) : String × String :=
  let libref := strLower (substitute_macro_vars macro_vars (raw_libref.getD "unknown"))
  let table := strLower (substitute_macro_vars macro_vars (raw_table.getD "unknown"))
  if '&' ∈ libref.toList then
    ("unknown." ++ table, "unknown")
  else
    match libname_map libref with
    | some (.oracle _ schema) => (schema ++ "." ++ table, "oracle")
    | some (.snowflake database schema) =>
        (substitute_macro_vars macro_vars database ++ "." ++
           substitute_macro_vars macro_vars schema ++ "." ++ table, "snowflake")
    | some (.base _) => (libref ++ "." ++ table, "base")
    | none =>
      match known_librefs libref with
      | some engine => (libref ++ "." ++ table, engine)
      | none =>
        if libref = "work" then ("work." ++ table, "work")
        else (libref ++ "." ++ table, "unknown")

/-- The resolution rule of the specification, written from its words: a
missing alias or table defaults to the literal `unknown`; an alias still
containing an unresolved `&` marker after macro substitution yields
`unknown.<table>` with engine `unknown`; otherwise strict priority order —
(a) the parsed library-alias map (engine-A gives `<schema>.<table>`,
engine-B gives `<database>.<schema>.<table>` with database and schema
macro-substituted, any other engine gives `<alias>.<table>`), then (b) the
configured alias-to-engine table giving `<alias>.<table>`, then (c) the
literal alias `work` giving `work.<table>` with the local-work engine,
then (d) `<alias>.<table>` with engine `unknown`. -/
def resolve_table_name_spec (raw_libref raw_table : Option String)
    (macro_vars : String → Option String)
    (libname_map : String → Option LibnameEntry)
    (known_librefs : String → Option String) : String × String :=
  let aliasName := strLower (substitute_macro_vars macro_vars (raw_libref.getD "unknown"))
  let table := strLower (substitute_macro_vars macro_vars (raw_table.getD "unknown"))
  if '&' ∈ aliasName.toList then
    ("unknown." ++ table, "unknown")
  else
    match libname_map aliasName with
    | some (.oracle _ schema) => (schema ++ "." ++ table, "oracle")
    | some (.snowflake database schema) =>
        (substitute_macro_vars macro_vars database ++ "." ++
           substitute_macro_vars macro_vars schema ++ "." ++ table, "snowflake")
    | some (.base _) => (aliasName ++ "." ++ table, "base")
    | none =>
      match known_librefs aliasName with
      | some engine => (aliasName ++ "." ++ table, engine)
      | none =>
        if aliasName = "work" then ("work." ++ table, "work")
        else (aliasName ++ "." ++ table, "unknown")

/-- Python `qualified_name.split(".")`: split at every dot; the result is
never empty (an empty input yields `[[]]`). -/
def splitDots (l : List Char) : List (List Char) :=
  match l with
  | [] => [[]]
  | c :: rest =>
    match splitDots rest with
    | [] => [[]]
    | h :: t => if c = '.' then [] :: h :: t else (c :: h) :: t

theorem splitDots_ne_nil (l : List Char) : splitDots l ≠ [] := by
  cases l with
  | nil => simp [splitDots]
  | cons c rest =>
    simp only [splitDots]
    rcases h : splitDots rest with _ | ⟨hh, tt⟩
    · simp
    · simp only []
      split <;> simp

/-- The configured Snowflake allow-list of `resolver.py`
(`SNOWFLAKE_WRITE_SCOPE_DBS`). -/
def SNOWFLAKE_WRITE_SCOPE_DBS : List String :=
  ["LIS_DTALAB_WRKGRP_SPC_DB", "DATALAB_ILSNP"]

/-- The default connection-macro variable bindings of `resolver.py`
(`DATALAB_DEFAULTS`), in the dict's iteration order. -/
def DATALAB_DEFAULTS : List (String × String) :=
  [("sf_database_old", "ILS_DATALAB_SBX_DB"),
   ("sf_schema_old", "DATALAB_ILSNP"),
   ("sf_database", "LIS_DTALAB_WRKGRP_SPC_DB"),
   ("sf_schema", "DL_T1_ILS_ANALYTICS")]

/-- `resolver.detect_snowflake_write_scope`: a write is in scope only for
the `snowflake` engine and only when the first dot-separated component of
the qualified name, upper-cased, is among the upper-cased allow-list. -/
def detect_snowflake_write_scope (qualified_name db_type : String)
    (scope_dbs : List String) : Bool :=
  if db_type ≠ "snowflake" then false
  else
    match splitDots qualified_name.toList with
    | [] => false
    | db :: _ => decide (strUpper (String.mk db) ∈ scope_dbs.map strUpper)

/-- A parsed table-write match as consumed by `scanner._process_file`:
the optional `libref`, `schema` and `table` capture fields plus the match
line. -/
structure ParsedWrite where
  libref : Option String := none
  schema : Option String := none
  table : Option String := none
  line : Nat
deriving DecidableEq

/-- Python's `a or b` on two optional strings: `a` when it is a non-empty
string, otherwise `b` (`None` and `""` are falsy). -/
def pyOr (a b : Option String) : Option String :=
  match a with
  | some s => if s = "" then b else some s
  | none => b

/-- A `table_operations` row as built by `scanner._process_file`. -/
structure OpRow where
  program_path : String
  table_name : String
  database_type : String
  operation_type : String
  source_line : Nat
  in_scope : Nat
deriving DecidableEq

/-- The write-record construction of `scanner._process_file` for one parsed
table write: resolve the (libref-or-schema, table) pair, then set
`in_scope` to 1 by default and, for the snowflake engine only, to the
verdict of `detect_snowflake_write_scope`. -/
def mkWriteRecord (path : String) (macro_vars : String → Option String)
    (libname_map : String → Option LibnameEntry)
    (known_librefs : String → Option String) (scope_dbs : List String)
    (w : ParsedWrite) : OpRow :=
  let libref := pyOr w.libref w.schema
  let qd := resolve_table_name libref w.table macro_vars libname_map known_librefs
  let in_scope : Nat :=
    if qd.2 = "snowflake" then
      if detect_snowflake_write_scope qd.1 qd.2 scope_dbs then 1 else 0
    else 1
  { program_path := path, table_name := qd.1, database_type := qd.2,
    operation_type := "create", source_line := w.line, in_scope := in_scope }

/-- All write records produced for one file (the `writes` loop of
`scanner._process_file`). -/
def writeRecords (path : String) (macro_vars : String → Option String)
    (libname_map : String → Option LibnameEntry)
    (known_librefs : String → Option String) (scope_dbs : List String)
    (ws : List ParsedWrite) : List OpRow :=
  ws.map (mkWriteRecord path macro_vars libname_map known_librefs scope_dbs)

/-- An extraction rule of a category, as compiled by `parser.load_patterns`:
its name and the mapping from capture-group index to semantic field name
(the regex itself is an external collaborator, represented by the match
enumerator passed to `find_matches`). -/
structure ExtractionRule where
  name : String
  groups : List (Nat × String)

/-- One raw regex match: its start offset in the source and its capture
groups, as delivered by the external regex engine (`finditer`). -/
structure RegexMatch where
  start : Nat
  group : Nat → Option String

/-- One match record built by `parser._find_matches`: the rule's name, the
1-based line of the match start, and the semantic-field captures. -/
structure MatchDict where
  pattern_name : String
  line : Nat
  fields : List (String × Option String)
deriving DecidableEq

/-- `parser._find_matches`: apply every rule of a category to the source
text; each raw match yields a record whose line is one plus the number of
newline characters preceding the match offset, and whose fields are the
captures renamed per the rule's group table. The enumeration of raw
matches is the external regex engine (`finditer`). -/
def find_matches (source : String) (rules : List ExtractionRule)
    (finditer : ExtractionRule → String → List RegexMatch) : List MatchDict :=
  rules.flatMap (fun pat =>
    (finditer pat source).map (fun m =>
      { pattern_name := pat.name,
        line := (source.toList.take m.start).count '\n' + 1,
        fields := pat.groups.map (fun g => (g.2, m.group g.1)) }))

/-- A `programs` row as built by `scanner._process_file`. -/
structure ProgramRow where
  program_path : String
  file_size : Int
  file_mtime : Int
  file_atime : Int
  file_uid : Int
  file_gid : Int
  file_mode : Int
  owner : String
  scan_timestamp : String
  credential_findings : Option String
deriving DecidableEq

/-- A `program_dependencies` row as built by `scanner._process_file`. -/
structure DepRow where
  source_program : String
  target_program : String
  dependency_type : String
deriving DecidableEq

/-- A `libname_mappings` row as built by `scanner._process_file`. -/
structure LibRow where
  libref : String
  engine : String
  source : String
deriving DecidableEq

/-- The four tables of the SQLite fact store (`db.init_db`). -/
structure FactDB where
  programs : List ProgramRow
  tableOps : List OpRow
  deps : List DepRow
  libnames : List LibRow
deriving DecidableEq

/-- The empty fact store. -/
def emptyDB : FactDB := ⟨[], [], [], []⟩

/-- One SQL write action of `db.py`, or a transaction commit. -/
inductive DbAction
  | upsertLibnames (rows : List LibRow)
  | deleteTableOps (path : String)
  | insertTableOps (rows : List OpRow)
  | deleteDeps (path : String)
  | insertDeps (rows : List DepRow)
  | upsertProgram (row : ProgramRow)
  | deleteProgramRow (path : String)
  | commit
deriving DecidableEq

/-- Effect of a single (non-commit) action on the connection's current
uncommitted state, per the SQL in `db.py`: libname and program upserts are
`INSERT OR REPLACE` by key, the delete-writers remove all rows owned by
the path, inserts append. -/
def applyAction (db : FactDB) : DbAction → FactDB
  | .upsertLibnames rows =>
      { db with libnames :=
          rows.foldl (fun acc r => acc.filter (fun x => x.libref ≠ r.libref) ++ [r]) db.libnames }
  | .deleteTableOps p => { db with tableOps := db.tableOps.filter (fun r => r.program_path ≠ p) }
  | .insertTableOps rows => { db with tableOps := db.tableOps ++ rows }
  | .deleteDeps p => { db with deps := db.deps.filter (fun r => r.source_program ≠ p) }
  | .insertDeps rows => { db with deps := db.deps ++ rows }
  | .upsertProgram row =>
      { db with programs := db.programs.filter (fun r => r.program_path ≠ row.program_path) ++ [row] }
  | .deleteProgramRow p => { db with programs := db.programs.filter (fun r => r.program_path ≠ p) }
  | .commit => db

/-- Run a list of actions over the pair (durably committed state, current
uncommitted state): a `commit` makes the current state durable; a crash
discards whatever was not committed. -/
def execActions (committed current : FactDB) : List DbAction → FactDB × FactDB
  | [] => (committed, current)
  | a :: rest =>
    if a = .commit then execActions current current rest
    else execActions committed (applyAction current a) rest

/-- The durably committed state after running `as` from a committed state
`db` (the connection starts with no transaction in progress). -/
def execCommitted (db : FactDB) (as : List DbAction) : FactDB :=
  (execActions db db as).1

/-- The child-fact portion of the write sequence of
`scanner._process_file`: libname mappings (upserted and committed only
when some were parsed), then the delete-then-insert replacement of the
file's table operations (committed by `db.upsert_table_operations`), then
the delete-then-insert replacement of its dependencies (committed by
`db.upsert_program_dependencies`). Empty DataFrames skip the insert
statement but still delete and commit. -/
def processFileBody (path : String) (libs : List LibRow) (ops : List OpRow)
    (deps : List DepRow) : List DbAction :=
  (if libs = [] then [] else [.upsertLibnames libs, .commit])
    ++ [.deleteTableOps path]
    ++ (if ops = [] then [] else [.insertTableOps ops])
    ++ [.commit]
    ++ [.deleteDeps path]
    ++ (if deps = [] then [] else [.insertDeps deps])
    ++ [.commit]

/-- The full storage write sequence of `scanner._process_file` for one
file: all child facts first, then the Program row upsert followed by the
final `conn.commit()`. -/
def processFileActions (path : String) (libs : List LibRow) (ops : List OpRow)
    (deps : List DepRow) (prog : ProgramRow) : List DbAction :=
  processFileBody path libs ops deps ++ [.upsertProgram prog, .commit]

/-- `db.clear_program`: delete the table operations, then the
dependencies, then the Program row, then commit. -/
def clear_program (path : String) : List DbAction :=
  [.deleteTableOps path, .deleteDeps path, .deleteProgramRow path, .commit]

/-- The committed `programs` rows for one path. -/
def programRowsFor (db : FactDB) (path : String) : List ProgramRow :=
  db.programs.filter (fun r => r.program_path = path)

/-- The committed `table_operations` rows for one path. -/
def opsFor (db : FactDB) (path : String) : List OpRow :=
  db.tableOps.filter (fun r => r.program_path = path)

/-- The committed `program_dependencies` rows for one source path. -/
def depsFor (db : FactDB) (path : String) : List DepRow :=
  db.deps.filter (fun r => r.source_program = path)

/-- Claim C1 as stated: for every file processed, every fault point inside
the write sequence leaves all of the file's durable facts — libname
mappings, table operations, dependencies, and the Program row — exactly as
they were before the file was processed. -/
def ClaimC1 : Prop :=
  ∀ (db0 : FactDB) (path : String) (libs : List LibRow) (ops : List OpRow)
    (deps : List DepRow) (prog : ProgramRow) (k : Nat),
    k < (processFileActions path libs ops deps prog).length →
    let committed := execCommitted db0 ((processFileActions path libs ops deps prog).take k)
    opsFor committed path = opsFor db0 path ∧
    depsFor committed path = depsFor db0 path ∧
    committed.libnames = db0.libnames ∧
    programRowsFor committed path = programRowsFor db0 path

/-- Action classifiers for the ordering claims. -/
def isUpsertProgramRow : DbAction → Bool
  | .upsertProgram _ => true
  | _ => false

def isChildInsert : DbAction → Bool
  | .insertTableOps _ => true
  | .insertDeps _ => true
  | _ => false

def isChildDelete : DbAction → Bool
  | .deleteTableOps _ => true
  | .deleteDeps _ => true
  | _ => false

def isDeleteProgramRow : DbAction → Bool
  | .deleteProgramRow _ => true
  | _ => false

def touchesPrograms : DbAction → Bool
  | .upsertProgram _ => true
  | .deleteProgramRow _ => true
  | _ => false

/-- Claim C2 as stated: the Program row is written before the file's child
rows are inserted, and on removal the child rows are deleted before the
Program row. -/
def ClaimC2 : Prop :=
  (∀ (path : String) (libs : List LibRow) (ops : List OpRow) (deps : List DepRow)
     (prog : ProgramRow), ops ≠ [] →
     (processFileActions path libs ops deps prog).findIdx isUpsertProgramRow
       < (processFileActions path libs ops deps prog).findIdx isChildInsert) ∧
  (∀ path : String,
     (clear_program path).findIdx isChildDelete
       < (clear_program path).findIdx isDeleteProgramRow)

/-- One remote file entry as yielded by `sftp_client.walk_remote`: its path
and remote modification time. -/
structure FileEntry where
  path : String
  mtime : Int
deriving DecidableEq

/-- The per-run counters of `scanner.scan`. -/
structure ScanStats where
  scanned : Nat
  skipped : Nat
  errors : Nat
  removed : Nat
deriving DecidableEq

/-- Loop state of the ScanRoots phase of `scanner.scan`: the store, the
counters, and the set of paths already observed in this run
(`all_remote_paths`). -/
structure RootsAcc where
  db : FactDB
  stats : ScanStats
  visited : List String

/-- One iteration of the ScanRoots loop of `scanner.scan` (phase 2): a
path already visited this run is passed over; otherwise it is recorded as
visited and, when no full rescan was requested and the remote modification
time equals the prior-state value, skipped without reading; otherwise the
file is read (a failed read counts an error) and fully processed. -/
def scanRootsStep (full : Bool) (scan_state : String → Option Int)
    (read_file : String → Option String)
    (process_file : FactDB → String → String → FactDB)
    (acc : RootsAcc) (entry : FileEntry) : RootsAcc :=
  if entry.path ∈ acc.visited then acc
  else
    let visited := entry.path :: acc.visited
    if !full && (scan_state entry.path == some entry.mtime) then
      { acc with stats := { acc.stats with skipped := acc.stats.skipped + 1 },
                 visited := visited }
    else
      match read_file entry.path with
      | none =>
          { acc with
            stats := { acc.stats with errors := acc.stats.errors + 1 },
            visited := visited }
      | some source =>
          { db := process_file acc.db entry.path source,
            stats := { acc.stats with scanned := acc.stats.scanned + 1 },
            visited := visited }

/-- Loop state of the ScanMacroDirectory phase of `scanner.scan`: the
store, the counters, the observed paths, and the macro catalog. -/
structure MacroAcc where
  db : FactDB
  stats : ScanStats
  remote : List String
  catalog : String → Option String

/-- One iteration of the ScanMacroDirectory loop of `scanner.scan`
(phase 1): the path is always recorded; an unchanged modification time
increments the skipped counter but — unlike phase 2 — execution falls
through, so the file is still read, its macro definitions are added to the
catalog, it is fully processed, and the scanned counter is also
incremented. -/
def scanMacroDirStep (full : Bool) (scan_state : String → Option Int)
    (read_file : String → Option String)
    (parse_macro_defs : String → List String)
    (process_file : FactDB → String → String → FactDB)
    (acc : MacroAcc) (entry : FileEntry) : MacroAcc :=
  let remote := entry.path :: acc.remote
  let stats1 :=
    if !full && (scan_state entry.path == some entry.mtime) then
      { acc.stats with skipped := acc.stats.skipped + 1 }
    else acc.stats
  match read_file entry.path with
  | none => { acc with stats := { stats1 with errors := stats1.errors + 1 },
                       remote := remote }
  | some source =>
      let catalog := (parse_macro_defs source).foldl
        (fun c n => fun k => if k = strLower n then some entry.path else c k)
        acc.catalog
      { db := process_file acc.db entry.path source,
        stats := { stats1 with scanned := stats1.scanned + 1 },
        remote := remote, catalog := catalog }

/-- The sum of the counters that classify one observed file. -/
def fileOutcomes (s : ScanStats) : Nat := s.scanned + s.skipped + s.errors

/-- The downstream edge relation of `queries.downstream_impact`, one
expansion step of the recursive CTE from frontier program `p`: programs
that read a table `p` creates, together with programs that declare a
dependency on `p`; the SQL excludes the trivial self-step in each arm. -/
def dsNext (db : FactDB) (p : String) : List String :=
  (db.tableOps.flatMap (fun w =>
    db.tableOps.filterMap (fun r =>
      if w.program_path = p ∧ w.operation_type = "create" ∧
         r.table_name = w.table_name ∧ r.operation_type = "read" ∧ r.program_path ≠ p
      then some r.program_path else none)))
  ++ db.deps.filterMap (fun d =>
      if d.target_program = p ∧ d.source_program ≠ p then some d.source_program else none)

/-- The upstream edge relation of `queries.upstream_dependencies`:
programs that create a table `p` reads, together with the targets of the
dependencies `p` declares. -/
def usNext (db : FactDB) (p : String) : List String :=
  (db.tableOps.flatMap (fun r =>
    db.tableOps.filterMap (fun w =>
      if r.program_path = p ∧ r.operation_type = "read" ∧
         w.table_name = r.table_name ∧ w.operation_type = "create" ∧ w.program_path ≠ p
      then some w.program_path else none)))
  ++ db.deps.filterMap (fun d =>
      if d.source_program = p ∧ d.target_program ≠ p then some d.target_program else none)

/-- Level `n` of the recursive CTE: the programs derivable at depth
exactly `n` (the seed at level 0, one edge step per level, duplicates
within a level merged by the CTE's `UNION`). -/
def cteFrontier (next : String → List String) (seed : String) : Nat → List String
  | 0 => [seed]
  | n + 1 => ((cteFrontier next seed n).flatMap next).dedup

/-- First index `< fuel`, counting from `k`, at which `p` holds. -/
def findFirst (p : Nat → Bool) : Nat → Nat → Option Nat
  | 0, _ => none
  | fuel + 1, k => if p k then some k else findFirst p fuel (k + 1)

/-- `MIN(depth)` of the CTE's rows for program `q`: the least depth
`d ≤ 20` at which `q` is derivable (the recursion stops expanding rows of
depth 20, so no deeper row exists). -/
def minDepth (next : String → List String) (seed : String) (q : String) : Option Nat :=
  findFirst (fun d => q ∈ cteFrontier next seed d) 21 0

/-- All programs derivable by the depth-capped CTE (any depth `0..20`). -/
def ctePrograms (next : String → List String) (seed : String) : List String :=
  ((List.range 21).flatMap (cteFrontier next seed)).dedup

/-- Byte-wise (ASCII/UTF-margin) lexicographic comparison of two character
lists, the text ordering SQLite's `ORDER BY` applies. -/
def charListLe : List Char → List Char → Bool
  | [], _ => true
  | _ :: _, [] => false
  | a :: as, b :: bs => if a = b then charListLe as bs else decide (a < b)

/-- The `ORDER BY depth, program_path` ordering on result rows. -/
def rowLE (a b : String × Nat) : Bool :=
  a.2 < b.2 || (a.2 == b.2 && charListLe a.1.toList b.1.toList)

/-- Insert a row into a list sorted by `le` (structural model of the SQL
`ORDER BY` sort). -/
def orderedInsert (le : (String × Nat) → (String × Nat) → Bool) (a : String × Nat) :
    List (String × Nat) → List (String × Nat)
  | [] => [a]
  | b :: l => if le a b then a :: b :: l else b :: orderedInsert le a l

/-- Sort the result rows by `le` (the SQL `ORDER BY`). -/
def sortRows (le : (String × Nat) → (String × Nat) → Bool) :
    List (String × Nat) → List (String × Nat)
  | [] => []
  | a :: l => orderedInsert le a (sortRows le l)

/-- The final `SELECT` of both impact queries: one row per derivable
program other than the seed, paired with its minimum depth, ordered by
depth then path. -/
def impactResult (next : String → List String) (seed : String) : List (String × Nat) :=
  sortRows rowLE
    (((ctePrograms next seed).filter (fun q => q ≠ seed)).filterMap
      (fun q => (minDepth next seed q).map (fun d => (q, d))))

/-- `queries.downstream_impact` over the fact store. -/
def downstream_impact (db : FactDB) (program_path : String) : List (String × Nat) :=
  impactResult (dsNext db) program_path

/-- `queries.upstream_dependencies` over the fact store. -/
def upstream_dependencies (db : FactDB) (program_path : String) : List (String × Nat) :=
  impactResult (usNext db) program_path

theorem append_dot_append_ne_empty (a b : String) : a ++ "." ++ b ≠ "" := by
  intro h
  have h2 := congrArg String.length h
  rw [String.length_append, String.length_append] at h2
  simp at h2
  exact absurd h2.1.2 (by decide)

/-- C3. `resolve_table_name` is total (it is a function), agrees with the
specification's priority rule on every input, and always returns a
non-empty qualified name; the engine tag is the one the matching priority
case defines. Engine naming: engine-A = "oracle", engine-B = "snowflake",
local-work = "work". -/
theorem resolve_table_name_matches_spec_and_total
    (raw_libref raw_table : Option String) (macro_vars : String → Option String)
    (libname_map : String → Option LibnameEntry)
    (known_librefs : String → Option String) :
    resolve_table_name raw_libref raw_table macro_vars libname_map known_librefs
        = resolve_table_name_spec raw_libref raw_table macro_vars libname_map known_librefs
    ∧ (resolve_table_name raw_libref raw_table macro_vars libname_map known_librefs).1 ≠ "" := by
  refine ⟨rfl, ?_⟩
  unfold resolve_table_name
  simp only []
  split
  · exact append_dot_append_ne_empty "unknown" _
  · split
    · exact append_dot_append_ne_empty _ _
    · exact append_dot_append_ne_empty _ _
    · exact append_dot_append_ne_empty _ _
    · split
      · exact append_dot_append_ne_empty _ _
      · split
        · exact append_dot_append_ne_empty "work" _
        · exact append_dot_append_ne_empty _ _

theorem detect_snowflake_eq (q : String) (scope_dbs : List String) :
    detect_snowflake_write_scope q "snowflake" scope_dbs
      = decide (strUpper (String.mk ((splitDots q.toList).headD []))
          ∈ scope_dbs.map strUpper) := by
  rw [detect_snowflake_write_scope, if_neg (by simp)]
  rcases hsplit : splitDots q.toList with _ | ⟨h0, t0⟩
  · exact absurd hsplit (splitDots_ne_nil _)
  · simp [List.headD_cons]

/-- C6. Every create record the pipeline builds carries the scope flag of
the specification: for the snowflake engine it is 1 exactly when the first
dot-separated component of the qualified name, compared case-insensitively,
is in the configured allow-list (0 otherwise); for every other engine it
is 1. -/
theorem write_scope_classification
    (path : String) (macro_vars : String → Option String)
    (libname_map : String → Option LibnameEntry)
    (known_librefs : String → Option String) (scope_dbs : List String)
    (ws : List ParsedWrite) :
    ∀ rec ∈ writeRecords path macro_vars libname_map known_librefs scope_dbs ws,
      (rec.database_type = "snowflake" →
        rec.in_scope =
          if strUpper (String.mk ((splitDots rec.table_name.toList).headD []))
              ∈ scope_dbs.map strUpper then 1 else 0)
      ∧ (rec.database_type ≠ "snowflake" → rec.in_scope = 1) := by
  intro rec hrec
  rw [writeRecords, List.mem_map] at hrec
  obtain ⟨w, _, hw⟩ := hrec
  subst hw
  simp only [mkWriteRecord]
  constructor
  · intro hsnow
    rw [if_pos hsnow, hsnow, detect_snowflake_eq]
    simp only [Bool.decide_coe, decide_eq_true_eq]
  · intro hnot
    rw [if_neg hnot]

theorem resolve_macro_vars_foldl (stmts : List LetStmt) (m : String → Option String)
    (k : String) :
    (stmts.foldl (fun m st => fun k => if k = strLower st.var then some st.value else m k) m) k
      = ((stmts.reverse.find? (fun st => strLower st.var == k)).map LetStmt.value).or (m k) := by
  induction stmts generalizing m with
  | nil => simp
  | cons s rest ih =>
    rw [List.foldl_cons, ih]
    simp only [List.reverse_cons, List.find?_append]
    rcases hf : rest.reverse.find? (fun st => strLower st.var == k) with _ | st
    · by_cases hk : k = strLower s.var
      · subst hk
        simp [List.find?_cons, hf]
      · have hps : (strLower s.var == k) = false := by
          simp only [beq_eq_false_iff_ne, ne_eq]
          exact fun h => hk h.symm
        simp [List.find?_cons, hps, if_neg hk, hf]
    · simp [hf]

theorem datalab_defaults_foldl (defaults : List (String × String))
    (m : String → Option String) (k : String) :
    (defaults.foldl
        (fun m p =>
          if m (strLower p.1) = none then
            (fun k => if k = strLower p.1 then some p.2 else m k)
          else m)
        m) k
      = (m k).or ((defaults.find? (fun p => strLower p.1 == k)).map Prod.snd) := by
  induction defaults generalizing m with
  | nil => simp
  | cons d rest ih =>
    rw [List.foldl_cons, ih]
    by_cases hk : k = strLower d.1
    · have hps : (strLower d.1 == k) = true := by simp [hk]
      subst hk
      rcases hm : m (strLower d.1) with _ | v <;>
        simp [List.find?_cons, hps, hm]
    · have hps : (strLower d.1 == k) = false := by
        simp only [beq_eq_false_iff_ne, ne_eq]
        exact fun h => hk h.symm
      rcases hm : m (strLower d.1) with _ | v <;>
        simp [List.find?_cons, hps, hm, hk]

/-- C7. The macro-variable map binds each lower-cased variable to its last
assignment in document order (the last matching `%LET` in reverse order is
found first), and the connection-defaults injection adds a default binding
only for names absent from that map — so an explicit assignment always
wins over an injected default, and nothing is injected when the macro is
not invoked. -/
theorem macro_map_last_wins_and_defaults_injection
    (stmts : List LetStmt) (source : String) (defaults : List (String × String))
    (k : String) :
    resolve_macro_vars stmts k
        = (stmts.reverse.find? (fun st => strLower st.var == k)).map LetStmt.value
    ∧ apply_datalab_connections source (resolve_macro_vars stmts) defaults k
        = (resolve_macro_vars stmts k).or
            (if hasDatalabCall source then
               (defaults.find? (fun p => strLower p.1 == k)).map Prod.snd
             else none) := by
  constructor
  · rw [resolve_macro_vars, resolve_macro_vars_foldl]
    simp
  · rw [apply_datalab_connections]
    by_cases hcall : hasDatalabCall source
    · rw [if_pos hcall, if_pos hcall, datalab_defaults_foldl]
    · rw [if_neg hcall, if_neg hcall, Option.or_none]

/-- C8. In the ScanRoots phase, an unvisited file whose remote
modification time equals the prior-state value, with no full rescan
requested, is counted as skipped and only marked visited: the store is
completely unchanged, and the step's result does not depend on the
file-reading or file-processing functions at all (the file is neither
read nor re-parsed). -/
theorem scan_roots_skips_unchanged
    (scan_state : String → Option Int)
    (read_file read_file' : String → Option String)
    (process_file process_file' : FactDB → String → String → FactDB)
    (acc : RootsAcc) (entry : FileEntry)
    (hvisited : entry.path ∉ acc.visited)
    (hstate : scan_state entry.path = some entry.mtime) :
    scanRootsStep false scan_state read_file process_file acc entry
        = { db := acc.db,
            stats := { acc.stats with skipped := acc.stats.skipped + 1 },
            visited := entry.path :: acc.visited }
    ∧ scanRootsStep false scan_state read_file process_file acc entry
        = scanRootsStep false scan_state read_file' process_file' acc entry
    ∧ (scanRootsStep false scan_state read_file process_file acc entry).db = acc.db := by
  have h : ∀ (rf : String → Option String) (pf : FactDB → String → String → FactDB),
      scanRootsStep false scan_state rf pf acc entry
        = { db := acc.db,
            stats := { acc.stats with skipped := acc.stats.skipped + 1 },
            visited := entry.path :: acc.visited } := by
    intro rf pf
    rw [scanRootsStep, if_neg hvisited]
    simp only [Bool.not_false, Bool.true_and, hstate, beq_self_eq_true, if_true]
  refine ⟨h _ _, ?_, ?_⟩
  · rw [h read_file process_file, h read_file' process_file']
  · rw [h read_file process_file]

theorem scan_roots_skips_unchanged_witness :
    (scanRootsStep false (fun p => if p = "/roots/a.sas" then some 5 else none)
        (fun _ => some "data work.x; set lib.y; run;") (fun db _ _ => db)
        ⟨emptyDB, ⟨0, 0, 0, 0⟩, ["/macros/util.sas"]⟩ ⟨"/roots/a.sas", 5⟩).db = emptyDB :=
  (scan_roots_skips_unchanged
    (fun p => if p = "/roots/a.sas" then some 5 else none)
    (fun _ => some "data work.x; set lib.y; run;") (fun _ => none)
    (fun db _ _ => db) (fun db _ _ => emptyDB)
    ⟨emptyDB, ⟨0, 0, 0, 0⟩, ["/macros/util.sas"]⟩ ⟨"/roots/a.sas", 5⟩
    (by decide) (by decide)).2.2

theorem scanMacroDirStep_outcomes (full : Bool) (scan_state : String → Option Int)
    (read_file : String → Option String) (parse_defs : String → List String)
    (process_file : FactDB → String → String → FactDB)
    (acc : MacroAcc) (entry : FileEntry) :
    fileOutcomes (scanMacroDirStep full scan_state read_file parse_defs process_file acc entry).stats
      = fileOutcomes acc.stats + 1 +
          (if !full && (scan_state entry.path == some entry.mtime) then 1 else 0) := by
  rw [scanMacroDirStep]
  rcases hrf : read_file entry.path with _ | src <;>
    (simp only [fileOutcomes]; split <;> simp <;> omega)

theorem scanMacroDir_run_outcomes (full : Bool) (scan_state : String → Option Int)
    (read_file : String → Option String) (parse_defs : String → List String)
    (process_file : FactDB → String → String → FactDB)
    (es : List FileEntry) (acc : MacroAcc) :
    fileOutcomes ((es.foldl (scanMacroDirStep full scan_state read_file parse_defs process_file) acc).stats)
      = fileOutcomes acc.stats + es.length +
          es.countP (fun e => !full && (scan_state e.path == some e.mtime)) := by
  induction es generalizing acc with
  | nil => simp
  | cons e rest ih =>
    rw [List.foldl_cons, ih, scanMacroDirStep_outcomes]
    rw [List.countP_cons]
    split <;> simp <;> omega

/-- C10. In the ScanMacroDirectory phase an unchanged, readable file is
still read and fully processed while also being counted as skipped: the
step increments both the skipped and the scanned counter and applies the
per-file processing to the store, so a run containing such a file reports
scanned + skipped + errors strictly greater than the number of files it
observed. -/
theorem scan_macro_dir_double_counts
    (scan_state : String → Option Int) (read_file : String → Option String)
    (parse_defs : String → List String)
    (process_file : FactDB → String → String → FactDB)
    (entry : FileEntry) (src : String)
    (hstate : scan_state entry.path = some entry.mtime)
    (hread : read_file entry.path = some src) :
    (∀ acc : MacroAcc,
      (scanMacroDirStep false scan_state read_file parse_defs process_file acc entry).stats.skipped
          = acc.stats.skipped + 1
      ∧ (scanMacroDirStep false scan_state read_file parse_defs process_file acc entry).stats.scanned
          = acc.stats.scanned + 1
      ∧ (scanMacroDirStep false scan_state read_file parse_defs process_file acc entry).db
          = process_file acc.db entry.path src)
    ∧ ∀ es : List FileEntry, entry ∈ es →
        es.length <
          fileOutcomes ((es.foldl
              (scanMacroDirStep false scan_state read_file parse_defs process_file)
              ⟨emptyDB, ⟨0, 0, 0, 0⟩, [], fun _ => none⟩).stats) := by
  constructor
  · intro acc
    simp [scanMacroDirStep, hread, hstate]
  · intro es hmem
    rw [scanMacroDir_run_outcomes]
    have hpos : 0 < es.countP (fun e => !false && (scan_state e.path == some e.mtime)) := by
      rw [List.countP_pos_iff]
      exact ⟨entry, hmem, by simp [hstate]⟩
    simp only [fileOutcomes]
    omega

theorem scan_macro_dir_double_counts_witness :
    ([(⟨"/macros/util.sas", 7⟩ : FileEntry)] : List FileEntry).length <
      fileOutcomes (([(⟨"/macros/util.sas", 7⟩ : FileEntry)].foldl
          (scanMacroDirStep false (fun p => if p = "/macros/util.sas" then some 7 else none)
            (fun _ => some "x") (fun _ => ["util"]) (fun db _ _ => db))
          ⟨emptyDB, ⟨0, 0, 0, 0⟩, [], fun _ => none⟩).stats) :=
  (scan_macro_dir_double_counts
    (fun p => if p = "/macros/util.sas" then some 7 else none)
    (fun _ => some "x") (fun _ => ["util"]) (fun db _ _ => db)
    ⟨"/macros/util.sas", 7⟩ "x" (by decide) (by decide)).2
    [⟨"/macros/util.sas", 7⟩] (by decide)

/-- C9. Every record produced by the fact extractor reports as its line
number one plus the count of newline characters strictly before the
match's start offset, carries its rule's name, and renames the captures
per the rule's group table; the extraction is a pure function of the text,
the rules and the engine's match enumeration. -/
theorem find_matches_line_numbers
    (source : String) (rules : List ExtractionRule)
    (finditer : ExtractionRule → String → List RegexMatch) :
    ∀ rec ∈ find_matches source rules finditer,
      ∃ pat ∈ rules, ∃ m ∈ finditer pat source,
        rec.pattern_name = pat.name
        ∧ rec.line = (source.toList.take m.start).count '\n' + 1
        ∧ rec.fields = pat.groups.map (fun g => (g.2, m.group g.1)) := by
  intro rec hrec
  rw [find_matches, List.mem_flatMap] at hrec
  obtain ⟨pat, hpat, hrec⟩ := hrec
  rw [List.mem_map] at hrec
  obtain ⟨m, hm, heq⟩ := hrec
  exact ⟨pat, hpat, m, hm, by rw [← heq], by rw [← heq], by rw [← heq]⟩

/-- Concrete extraction rule, engine and record used to witness the
line-number theorem. -/
def c9Rule : ExtractionRule := { name := "proc-sql-create", groups := [(1, "table")] }

def c9Finditer : ExtractionRule → String → List RegexMatch :=
  fun _ _ => [{ start := 2, group := fun i => if i = 1 then some "work.t" else none }]

def c9Source : String := "a\ncreate table work.t"

def c9Rec : MatchDict :=
  { pattern_name := "proc-sql-create", line := 2, fields := [("table", some "work.t")] }

theorem find_matches_line_numbers_witness :
    c9Rec ∈ find_matches c9Source [c9Rule] c9Finditer
    ∧ ∃ pat ∈ [c9Rule], ∃ m ∈ c9Finditer pat c9Source,
        c9Rec.pattern_name = pat.name
        ∧ c9Rec.line = (c9Source.toList.take m.start).count '\n' + 1
        ∧ c9Rec.fields = pat.groups.map (fun g => (g.2, m.group g.1)) :=
  ⟨by decide, find_matches_line_numbers c9Source [c9Rule] c9Finditer c9Rec (by decide)⟩

/-- Concrete inputs used to witness the scope-classification theorem. -/
def c6LibnameMap : String → Option LibnameEntry :=
  fun l => if l = "snow" then some (.snowflake "LIS_DTALAB_WRKGRP_SPC_DB" "SCH") else none

def c6Write : ParsedWrite := { libref := some "snow", table := some "T", line := 3 }

def c6Rec : OpRow :=
  mkWriteRecord "/p.sas" (fun _ => none) c6LibnameMap (fun _ => none)
    ["LIS_DTALAB_WRKGRP_SPC_DB"] c6Write

theorem write_scope_classification_witness :
    c6Rec.in_scope =
      if strUpper (String.mk ((splitDots c6Rec.table_name.toList).headD []))
          ∈ (["LIS_DTALAB_WRKGRP_SPC_DB"] : List String).map strUpper then 1 else 0 :=
  (write_scope_classification "/p.sas" (fun _ => none) c6LibnameMap (fun _ => none)
    ["LIS_DTALAB_WRKGRP_SPC_DB"] [c6Write] c6Rec (by decide)).1 (by decide)

theorem applyAction_programs (db : FactDB) (a : DbAction)
    (h : touchesPrograms a = false) : (applyAction db a).programs = db.programs := by
  cases a <;> first
    | rfl
    | (exfalso; revert h; simp [touchesPrograms])

theorem execActions_programs (as : List DbAction) :
    ∀ (committed current : FactDB),
      (∀ a ∈ as, touchesPrograms a = false) →
      current.programs = committed.programs →
      (execActions committed current as).1.programs = committed.programs
        ∧ (execActions committed current as).2.programs = committed.programs := by
  induction as with
  | nil => intro c cur _ hcur; exact ⟨rfl, hcur⟩
  | cons a rest ih =>
    intro c cur hall hcur
    by_cases hc : a = .commit
    · subst hc
      rw [execActions, if_pos rfl]
      have h2 := ih cur cur (fun x hx => hall x (List.mem_cons_of_mem _ hx)) rfl
      exact ⟨h2.1.trans hcur, h2.2.trans hcur⟩
    · rw [execActions, if_neg hc]
      have happ : (applyAction cur a).programs = c.programs :=
        (applyAction_programs cur a (hall a (List.mem_cons_self _ _))).trans hcur
      exact ih c (applyAction cur a) (fun x hx => hall x (List.mem_cons_of_mem _ hx)) happ

theorem execActions_append (as bs : List DbAction) : ∀ (c cur : FactDB),
    execActions c cur (as ++ bs)
      = execActions (execActions c cur as).1 (execActions c cur as).2 bs := by
  induction as with
  | nil => intro c cur; rfl
  | cons a rest ih =>
    intro c cur
    by_cases hc : a = .commit
    · subst hc
      rw [List.cons_append, execActions, if_pos rfl, execActions, if_pos rfl]
      exact ih _ _
    · rw [List.cons_append, execActions, if_neg hc, execActions, if_neg hc]
      exact ih _ _

theorem processFileBody_all (path : String) (libs : List LibRow) (ops : List OpRow)
    (deps : List DepRow) :
    ∀ a ∈ processFileBody path libs ops deps, touchesPrograms a = false := by
  have hall : (processFileBody path libs ops deps).all (fun a => !touchesPrograms a) = true := by
    rcases libs with _ | ⟨lr, lrs⟩ <;> rcases ops with _ | ⟨o, os⟩ <;>
      rcases deps with _ | ⟨d, ds⟩ <;> rfl
  intro a ha
  have h2 := List.all_eq_true.mp hall a ha
  simpa using h2

theorem filter_replace_ops (l ops : List OpRow) (path : String)
    (hops : ∀ r ∈ ops, r.program_path = path) :
    ((l.filter (fun r => r.program_path ≠ path)) ++ ops).filter
        (fun r => r.program_path = path) = ops := by
  rw [List.filter_append]
  have h1 : (l.filter (fun r => r.program_path ≠ path)).filter
      (fun r => r.program_path = path) = [] := by
    rw [List.filter_eq_nil_iff]
    intro a ha
    have := List.of_mem_filter ha
    simp at this ⊢
    exact this
  have h2 : ops.filter (fun r => r.program_path = path) = ops :=
    List.filter_eq_self.mpr (fun a ha => by simp [hops a ha])
  rw [h1, h2, List.nil_append]

/-- C1 (amended). On any fault strictly inside the per-file write
sequence, the Program row for the file is always left unchanged — it is
upserted last and made durable only by the final commit — but the write
sequence is not one atomic unit: the child-fact writers commit their own
transactions as they complete, so there is a fault point (right after
`db.upsert_table_operations` commits) at which the file's new
TableOperation rows are already durably committed while its Program row is
still the old one. -/
theorem scanner_fault_durability
    (db0 : FactDB) (path : String) (libs : List LibRow) (ops : List OpRow)
    (deps : List DepRow) (prog : ProgramRow)
    (hops : ∀ r ∈ ops, r.program_path = path) :
    (∀ k, k < (processFileActions path libs ops deps prog).length →
      programRowsFor (execCommitted db0
          ((processFileActions path libs ops deps prog).take k)) path
        = programRowsFor db0 path)
    ∧ ∃ k, k < (processFileActions path libs ops deps prog).length ∧
        opsFor (execCommitted db0
            ((processFileActions path libs ops deps prog).take k)) path = ops := by
  constructor
  · intro k hk
    have hlen : (processFileActions path libs ops deps prog).length
        = (processFileBody path libs ops deps).length + 2 := by
      simp [processFileActions]
    have hbodyall := processFileBody_all path libs ops deps
    by_cases hkb : k ≤ (processFileBody path libs ops deps).length
    · have htake : (processFileActions path libs ops deps prog).take k
          = (processFileBody path libs ops deps).take k := by
        rw [processFileActions]
        exact List.take_append_of_le_length hkb
      rw [htake, execCommitted]
      have hprog := (execActions_programs ((processFileBody path libs ops deps).take k) db0 db0
        (fun a ha => hbodyall a (List.take_subset _ _ ha)) rfl).1
      rw [programRowsFor, programRowsFor, hprog]
    · have hk1 : k = (processFileBody path libs ops deps).length + 1 := by omega
      have htake : (processFileActions path libs ops deps prog).take k
          = processFileBody path libs ops deps ++ [DbAction.upsertProgram prog] := by
        rw [processFileActions, hk1, List.take_append 1]
        rfl
      rw [htake, execCommitted, execActions_append]
      rw [execActions, if_neg (by simp), execActions]
      have hprog := (execActions_programs (processFileBody path libs ops deps) db0 db0
        hbodyall rfl).1
      rw [programRowsFor, programRowsFor]
      rw [show (execActions db0 db0 (processFileBody path libs ops deps)).1.programs
            = db0.programs from hprog]
  · rcases libs with _ | ⟨lr, lrs⟩ <;> rcases ops with _ | ⟨o, os⟩
    · refine ⟨2, by rcases deps with _ | ⟨d, ds⟩ <;> simp [processFileActions, processFileBody], ?_⟩
      have htake : (processFileActions path [] [] deps prog).take 2
          = [DbAction.deleteTableOps path, DbAction.commit] := by
        rcases deps with _ | ⟨d, ds⟩ <;> rfl
      rw [htake, execCommitted]
      simp only [execActions, applyAction, opsFor]
      simp
    · refine ⟨3, by rcases deps with _ | ⟨d, ds⟩ <;> simp [processFileActions, processFileBody], ?_⟩
      have htake : (processFileActions path [] (o :: os) deps prog).take 3
          = [DbAction.deleteTableOps path, DbAction.insertTableOps (o :: os),
             DbAction.commit] := by
        rcases deps with _ | ⟨d, ds⟩ <;> rfl
      rw [htake, execCommitted]
      simp only [execActions, applyAction, opsFor]
      exact filter_replace_ops db0.tableOps (o :: os) path hops
    · refine ⟨4, by rcases deps with _ | ⟨d, ds⟩ <;> simp [processFileActions, processFileBody], ?_⟩
      have htake : (processFileActions path (lr :: lrs) [] deps prog).take 4
          = [DbAction.upsertLibnames (lr :: lrs), DbAction.commit,
             DbAction.deleteTableOps path, DbAction.commit] := by
        rcases deps with _ | ⟨d, ds⟩ <;> rfl
      rw [htake, execCommitted]
      simp only [execActions, applyAction, opsFor]
      simp
    · refine ⟨5, by rcases deps with _ | ⟨d, ds⟩ <;> simp [processFileActions, processFileBody], ?_⟩
      have htake : (processFileActions path (lr :: lrs) (o :: os) deps prog).take 5
          = [DbAction.upsertLibnames (lr :: lrs), DbAction.commit,
             DbAction.deleteTableOps path, DbAction.insertTableOps (o :: os),
             DbAction.commit] := by
        rcases deps with _ | ⟨d, ds⟩ <;> rfl
      rw [htake, execCommitted]
      simp only [execActions, applyAction, opsFor]
      exact filter_replace_ops db0.tableOps (o :: os) path hops

/-- Concrete store and rows for the atomicity counterexample: a previously
scanned file is rescanned and the fault hits right after the table
operations commit. -/
def c1OldOp : OpRow :=
  { program_path := "/a.s", table_name := "work.old", database_type := "work",
    operation_type := "create", source_line := 1, in_scope := 1 }

def c1NewOp : OpRow :=
  { program_path := "/a.s", table_name := "work.new", database_type := "work",
    operation_type := "create", source_line := 2, in_scope := 1 }

def c1Prog : ProgramRow :=
  { program_path := "/a.s", file_size := 10, file_mtime := 100, file_atime := 100,
    file_uid := 0, file_gid := 0, file_mode := 0, owner := "0",
    scan_timestamp := "t1", credential_findings := none }

def c1DB : FactDB :=
  { programs := [{ c1Prog with scan_timestamp := "t0" }],
    tableOps := [c1OldOp], deps := [], libnames := [] }

theorem scanner_atomicity_counterexample : ¬ ClaimC1 := fun h =>
  absurd (h c1DB "/a.s" [] [c1NewOp] [] c1Prog 3 (by decide)) (by decide)

theorem scanner_fault_durability_witness :
    programRowsFor (execCommitted c1DB
        ((processFileActions "/a.s" [] [c1NewOp] [] c1Prog).take 3)) "/a.s"
      = programRowsFor c1DB "/a.s" :=
  (scanner_fault_durability c1DB "/a.s" [] [c1NewOp] [] c1Prog (by decide)).1 3 (by decide)

/-- Concrete rows for the write-order counterexample. -/
def c2Op : OpRow :=
  { program_path := "/b.s", table_name := "work.t", database_type := "work",
    operation_type := "create", source_line := 1, in_scope := 1 }

def c2Prog : ProgramRow :=
  { program_path := "/b.s", file_size := 1, file_mtime := 1, file_atime := 1,
    file_uid := 0, file_gid := 0, file_mode := 0, owner := "0",
    scan_timestamp := "t", credential_findings := none }

theorem scanner_write_order_counterexample : ¬ ClaimC2 := fun h =>
  absurd (h.1 "/b.s" [] [c2Op] [] c2Prog (by decide)) (by decide)

/-- C2 (amended). The coordinator writes a file's child rows first: every
TableOperation and ProgramDependency insert happens strictly before the
Program row upsert, which — followed only by the final commit — closes the
sequence; on removal, `clear_program` does delete the child rows before
the Program row, as the claim states. -/
theorem scanner_children_written_first (path : String) (libs : List LibRow)
    (ops : List OpRow) (deps : List DepRow) (prog : ProgramRow) :
    ((processFileActions path libs ops deps prog).drop
        ((processFileActions path libs ops deps prog).findIdx isUpsertProgramRow)
      = [DbAction.upsertProgram prog, DbAction.commit])
    ∧ (ops ≠ [] → DbAction.insertTableOps ops ∈
        (processFileActions path libs ops deps prog).take
          ((processFileActions path libs ops deps prog).findIdx isUpsertProgramRow))
    ∧ (deps ≠ [] → DbAction.insertDeps deps ∈
        (processFileActions path libs ops deps prog).take
          ((processFileActions path libs ops deps prog).findIdx isUpsertProgramRow))
    ∧ ((clear_program path).drop ((clear_program path).findIdx isDeleteProgramRow)
        = [DbAction.deleteProgramRow path, DbAction.commit])
    ∧ DbAction.deleteTableOps path ∈
        (clear_program path).take ((clear_program path).findIdx isDeleteProgramRow)
    ∧ DbAction.deleteDeps path ∈
        (clear_program path).take ((clear_program path).findIdx isDeleteProgramRow) := by
  refine ⟨?_, ?_, ?_, by rfl,
    by simp [clear_program, isDeleteProgramRow, List.findIdx_cons],
    by simp [clear_program, isDeleteProgramRow, List.findIdx_cons]⟩ <;>
    rcases libs with _ | ⟨lr, lrs⟩ <;> rcases ops with _ | ⟨o, os⟩ <;>
    rcases deps with _ | ⟨d, ds⟩ <;>
    simp [processFileActions, processFileBody, clear_program, isUpsertProgramRow,
      isDeleteProgramRow, List.findIdx_cons]

theorem scanner_children_written_first_witness :
    DbAction.insertTableOps [c2Op] ∈
      (processFileActions "/b.s" [] [c2Op] [] c2Prog).take
        ((processFileActions "/b.s" [] [c2Op] [] c2Prog).findIdx isUpsertProgramRow) :=
  (scanner_children_written_first "/b.s" [] [c2Op] [] c2Prog).2.1 (by decide)

theorem charListLe_trans (a : List Char) : ∀ b c, charListLe a b = true →
    charListLe b c = true → charListLe a c = true := by
  induction a with
  | nil => intro b c _ _; rfl
  | cons x xs ih =>
    intro b c hab hbc
    cases b with
    | nil => simp [charListLe] at hab
    | cons y ys =>
      cases c with
      | nil => simp [charListLe] at hbc
      | cons z zs =>
        simp only [charListLe] at hab hbc ⊢
        by_cases hxy : x = y
        · subst hxy
          rw [if_pos rfl] at hab
          by_cases hxz : x = z
          · subst hxz
            rw [if_pos rfl] at hbc ⊢
            exact ih _ _ hab hbc
          · rw [if_neg hxz] at hbc ⊢
            exact hbc
        · rw [if_neg hxy] at hab
          by_cases hyz : y = z
          · subst hyz
            rw [if_neg hxy]
            exact hab
          · rw [if_neg hyz] at hbc
            have hxz : x < z := lt_trans (of_decide_eq_true hab) (of_decide_eq_true hbc)
            rw [if_neg (ne_of_lt hxz)]
            exact decide_eq_true hxz

theorem charListLe_total (a : List Char) : ∀ b,
    (charListLe a b || charListLe b a) = true := by
  induction a with
  | nil => intro b; rfl
  | cons x xs ih =>
    intro b
    cases b with
    | nil => rfl
    | cons y ys =>
      simp only [charListLe]
      by_cases hxy : x = y
      · subst hxy
        rw [if_pos rfl, if_pos rfl]
        exact ih ys
      · rw [if_neg hxy, if_neg (Ne.symm hxy)]
        rcases lt_or_gt_of_ne hxy with h | h
        · simp [h]
        · simp [h]

theorem rowLE_trans (a b c : String × Nat) (hab : rowLE a b = true)
    (hbc : rowLE b c = true) : rowLE a c = true := by
  simp only [rowLE, Bool.or_eq_true, Bool.and_eq_true, decide_eq_true_eq,
    beq_iff_eq] at hab hbc ⊢
  rcases hab with h1 | ⟨h1, h1'⟩ <;> rcases hbc with h2 | ⟨h2, h2'⟩
  · exact Or.inl (by omega)
  · exact Or.inl (by omega)
  · exact Or.inl (by omega)
  · exact Or.inr ⟨by omega, charListLe_trans _ _ _ h1' h2'⟩

theorem rowLE_total (a b : String × Nat) : (rowLE a b || rowLE b a) = true := by
  simp only [rowLE, Bool.or_eq_true, Bool.and_eq_true, decide_eq_true_eq, beq_iff_eq]
  rcases Nat.lt_trichotomy a.2 b.2 with h | h | h
  · exact Or.inl (Or.inl h)
  · have := charListLe_total a.1.toList b.1.toList
    rcases Bool.or_eq_true_iff.mp this with h2 | h2
    · exact Or.inl (Or.inr ⟨h, h2⟩)
    · exact Or.inr (Or.inr ⟨h.symm, h2⟩)
  · exact Or.inr (Or.inl h)

theorem mem_cteFrontier_succ (next : String → List String) (seed : String)
    (n : Nat) (q : String) :
    q ∈ cteFrontier next seed (n + 1) ↔ ∃ p ∈ cteFrontier next seed n, q ∈ next p := by
  simp [cteFrontier, List.mem_dedup, List.mem_flatMap]

theorem cteFrontier_succ_front (next : String → List String) (seed : String) :
    ∀ (n : Nat) (q : String),
      q ∈ cteFrontier next seed (n + 1) ↔ ∃ m ∈ next seed, q ∈ cteFrontier next m n := by
  intro n
  induction n with
  | zero =>
    intro q
    rw [mem_cteFrontier_succ]
    constructor
    · rintro ⟨p, hp, hq⟩
      simp only [cteFrontier, List.mem_singleton] at hp
      subst hp
      exact ⟨q, hq, by simp [cteFrontier]⟩
    · rintro ⟨m, hm, hq⟩
      simp only [cteFrontier, List.mem_singleton] at hq
      subst hq
      exact ⟨seed, by simp [cteFrontier], hm⟩
  | succ n ih =>
    intro q
    rw [mem_cteFrontier_succ]
    constructor
    · rintro ⟨p, hp, hq⟩
      obtain ⟨m, hm, hpm⟩ := (ih p).mp hp
      exact ⟨m, hm, (mem_cteFrontier_succ next m n q).mpr ⟨p, hpm, hq⟩⟩
    · rintro ⟨m, hm, hq⟩
      obtain ⟨p, hpm, hqp⟩ := (mem_cteFrontier_succ next m n q).mp hq
      exact ⟨p, (ih p).mpr ⟨m, hm, hpm⟩, hqp⟩

theorem cteFrontier_reverse (f g : String → List String)
    (hfg : ∀ p q, q ∈ f p ↔ p ∈ g q) :
    ∀ (n : Nat) (s q : String), q ∈ cteFrontier f s n ↔ s ∈ cteFrontier g q n := by
  intro n
  induction n with
  | zero =>
    intro s q
    simp only [cteFrontier, List.mem_singleton]
    exact eq_comm
  | succ n ih =>
    intro s q
    rw [mem_cteFrontier_succ]
    rw [cteFrontier_succ_front]
    constructor
    · rintro ⟨p, hp, hq⟩
      exact ⟨p, (hfg p q).mp hq, (ih s p).mp hp⟩
    · rintro ⟨m, hm, hq⟩
      exact ⟨m, (ih s m).mpr hq, (hfg m q).mpr hm⟩

theorem findFirst_eq_some (p : Nat → Bool) :
    ∀ (fuel k d : Nat), findFirst p fuel k = some d →
      p d = true ∧ k ≤ d ∧ d < k + fuel ∧ ∀ j, k ≤ j → j < d → p j = false := by
  intro fuel
  induction fuel with
  | zero => intro k d h; simp [findFirst] at h
  | succ n ih =>
    intro k d h
    rw [findFirst] at h
    by_cases hp : p k
    · rw [if_pos hp] at h
      have hkd : k = d := by injection h
      subst hkd
      exact ⟨hp, le_refl _, by omega, fun j h1 h2 => absurd h1 (by omega)⟩
    · rw [if_neg hp] at h
      obtain ⟨hpd, hkd, hdk, hmin⟩ := ih (k + 1) d h
      refine ⟨hpd, by omega, by omega, ?_⟩
      intro j hj1 hj2
      rcases Nat.eq_or_lt_of_le hj1 with rfl | hlt
      · simpa using hp
      · exact hmin j (by omega) hj2

theorem findFirst_eq_none (p : Nat → Bool) :
    ∀ (fuel k : Nat), findFirst p fuel k = none →
      ∀ j, k ≤ j → j < k + fuel → p j = false := by
  intro fuel
  induction fuel with
  | zero => intro k _ j h1 h2; omega
  | succ n ih =>
    intro k h j h1 h2
    rw [findFirst] at h
    by_cases hp : p k
    · rw [if_pos hp] at h; cases h
    · rw [if_neg hp] at h
      rcases Nat.eq_or_lt_of_le h1 with rfl | hlt
      · simpa using hp
      · exact ih (k + 1) h j (by omega) (by omega)

theorem minDepth_spec {next : String → List String} {seed q : String} {d : Nat}
    (h : minDepth next seed q = some d) :
    q ∈ cteFrontier next seed d ∧ d ≤ 20 ∧ ∀ j < d, q ∉ cteFrontier next seed j := by
  obtain ⟨hp, _, hlt, hmin⟩ := findFirst_eq_some _ 21 0 d h
  refine ⟨by simpa using hp, by omega, ?_⟩
  intro j hj hmem
  have hfalse := hmin j (by omega) hj
  simp [hmem] at hfalse

theorem minDepth_le_of_mem {next : String → List String} {seed q : String} {d : Nat}
    (hd : d ≤ 20) (h : q ∈ cteFrontier next seed d) :
    ∃ e, minDepth next seed q = some e ∧ e ≤ d := by
  rcases he : minDepth next seed q with _ | e
  · exfalso
    have hfalse := findFirst_eq_none _ 21 0 he d (by omega) (by omega)
    simp [h] at hfalse
  · obtain ⟨-, -, -, hmin⟩ := findFirst_eq_some _ 21 0 e he
    refine ⟨e, rfl, ?_⟩
    by_contra hlt
    have hfalse := hmin d (by omega) (by omega)
    simp [h] at hfalse

theorem orderedInsert_perm (le : (String × Nat) → (String × Nat) → Bool)
    (a : String × Nat) (l : List (String × Nat)) :
    List.Perm (orderedInsert le a l) (a :: l) := by
  induction l with
  | nil => exact List.Perm.refl _
  | cons b t ih =>
    rw [orderedInsert]
    split
    · exact List.Perm.refl _
    · exact (ih.cons b).trans (List.Perm.swap a b t)

theorem sortRows_perm (le : (String × Nat) → (String × Nat) → Bool)
    (l : List (String × Nat)) : List.Perm (sortRows le l) l := by
  induction l with
  | nil => exact List.Perm.refl _
  | cons a t ih =>
    rw [sortRows]
    exact (orderedInsert_perm le a (sortRows le t)).trans (ih.cons a)

theorem mem_sortRows (le : (String × Nat) → (String × Nat) → Bool)
    (x : String × Nat) (l : List (String × Nat)) :
    x ∈ sortRows le l ↔ x ∈ l := (sortRows_perm le l).mem_iff

theorem sorted_orderedInsert (le : (String × Nat) → (String × Nat) → Bool)
    (htrans : ∀ a b c, le a b = true → le b c = true → le a c = true)
    (htotal : ∀ a b, (le a b || le b a) = true)
    (a : String × Nat) (l : List (String × Nat))
    (hp : l.Pairwise (fun x y => le x y = true)) :
    (orderedInsert le a l).Pairwise (fun x y => le x y = true) := by
  induction l with
  | nil => exact List.pairwise_singleton _ _
  | cons b t ih =>
    rw [orderedInsert]
    rcases List.pairwise_cons.mp hp with ⟨hbt, hpt⟩
    by_cases hab : le a b = true
    · rw [if_pos hab]
      refine List.pairwise_cons.mpr ⟨?_, hp⟩
      intro y hy
      rcases List.mem_cons.mp hy with rfl | hyt
      · exact hab
      · exact htrans _ _ _ hab (hbt y hyt)
    · rw [if_neg hab]
      refine List.pairwise_cons.mpr ⟨?_, ih hpt⟩
      intro y hy
      rcases List.mem_cons.mp ((orderedInsert_perm le a t).mem_iff.mp hy) with rfl | hyt
      · rcases Bool.or_eq_true_iff.mp (htotal y b) with h | h
        · exact absurd h hab
        · exact h
      · exact hbt y hyt

theorem sorted_sortRows (le : (String × Nat) → (String × Nat) → Bool)
    (htrans : ∀ a b c, le a b = true → le b c = true → le a c = true)
    (htotal : ∀ a b, (le a b || le b a) = true)
    (l : List (String × Nat)) :
    (sortRows le l).Pairwise (fun x y => le x y = true) := by
  induction l with
  | nil => exact List.Pairwise.nil
  | cons a t ih =>
    rw [sortRows]
    exact sorted_orderedInsert le htrans htotal a _ ih

theorem mem_impactResult (next : String → List String) (seed q : String) (d : Nat) :
    (q, d) ∈ impactResult next seed ↔ q ≠ seed ∧ minDepth next seed q = some d := by
  rw [impactResult, mem_sortRows, List.mem_filterMap]
  constructor
  · rintro ⟨q', hq', hmap⟩
    rcases hmd : minDepth next seed q' with _ | d'
    · rw [hmd] at hmap; simp at hmap
    · rw [hmd] at hmap
      simp at hmap
      obtain ⟨rfl, rfl⟩ := hmap
      have hfil := List.mem_filter.mp hq'
      exact ⟨by simpa using hfil.2, hmd⟩
  · rintro ⟨hne, hmd⟩
    refine ⟨q, ?_, by rw [hmd]; rfl⟩
    rw [List.mem_filter]
    refine ⟨?_, by simpa using hne⟩
    obtain ⟨hmem, hle, -⟩ := minDepth_spec hmd
    rw [ctePrograms, List.mem_dedup, List.mem_flatMap]
    exact ⟨d, by rw [List.mem_range]; omega, hmem⟩

theorem impactResult_spec (next : String → List String) (seed : String) :
    (∀ r ∈ impactResult next seed,
        r.2 ≤ 20 ∧ r.1 ≠ seed ∧ r.1 ∈ cteFrontier next seed r.2
          ∧ ∀ j < r.2, r.1 ∉ cteFrontier next seed j)
    ∧ ((impactResult next seed).map Prod.fst).Nodup
    ∧ (impactResult next seed).Pairwise (fun a b => rowLE a b = true)
    ∧ ∀ q : String, (∃ d, (q, d) ∈ impactResult next seed)
        ↔ (q ≠ seed ∧ ∃ d, d ≤ 20 ∧ q ∈ cteFrontier next seed d) := by
  refine ⟨?_, ?_, ?_, ?_⟩
  · rintro ⟨q, d⟩ hr
    obtain ⟨hne, hmd⟩ := (mem_impactResult next seed q d).mp hr
    obtain ⟨hmem, hle, hmin⟩ := minDepth_spec hmd
    exact ⟨hle, hne, hmem, hmin⟩
  · have hnodup0 : (((List.range 21).flatMap (cteFrontier next seed)).dedup.filter
        (fun q => q ≠ seed)).Nodup := (List.nodup_dedup _).filter _
    have hmapfst : ∀ l : List String,
        ((l.filterMap (fun q => (minDepth next seed q).map (fun d => (q, d)))).map Prod.fst)
          = l.filter (fun q => (minDepth next seed q).isSome) := by
      intro l
      induction l with
      | nil => rfl
      | cons x xs ihx =>
        rcases hx : minDepth next seed x with _ | e <;>
          simp [List.filterMap_cons, hx, List.filter_cons, ihx]
    have h1 : (((((List.range 21).flatMap (cteFrontier next seed)).dedup.filter
        (fun q => q ≠ seed)).filterMap
          (fun q => (minDepth next seed q).map (fun d => (q, d)))).map Prod.fst).Nodup := by
      rw [hmapfst]
      exact hnodup0.filter _
    have hperm := sortRows_perm rowLE
      (((((List.range 21).flatMap (cteFrontier next seed)).dedup.filter
          (fun q => q ≠ seed)).filterMap
            (fun q => (minDepth next seed q).map (fun d => (q, d)))))
    rw [impactResult, ctePrograms]
    exact ((hperm.map Prod.fst).symm).nodup h1
  · rw [impactResult]
    exact sorted_sortRows rowLE rowLE_trans rowLE_total _
  · intro q
    constructor
    · rintro ⟨d, hd⟩
      obtain ⟨hne, hmd⟩ := (mem_impactResult next seed q d).mp hd
      obtain ⟨hmem, hle, -⟩ := minDepth_spec hmd
      exact ⟨hne, d, hle, hmem⟩
    · rintro ⟨hne, d, hle, hmem⟩
      obtain ⟨e, he, -⟩ := minDepth_le_of_mem hle hmem
      exact ⟨e, (mem_impactResult next seed q e).mpr ⟨hne, he⟩⟩

/-- C4. For every stored graph, cyclic or not, both impact traversals are
total functions whose expansion never passes the depth cap of 20: every
result row's depth is at most 20 and is the minimum depth at which the
program is derivable, the result's program paths are pairwise distinct,
the seed is excluded, rows are ordered by depth then path, and exactly the
programs derivable within the cap appear. -/
theorem impact_traversals_depth_capped (db : FactDB) (seed : String) :
    ((∀ r ∈ downstream_impact db seed,
        r.2 ≤ 20 ∧ r.1 ≠ seed ∧ r.1 ∈ cteFrontier (dsNext db) seed r.2
          ∧ ∀ j < r.2, r.1 ∉ cteFrontier (dsNext db) seed j)
      ∧ ((downstream_impact db seed).map Prod.fst).Nodup
      ∧ (downstream_impact db seed).Pairwise (fun a b => rowLE a b = true)
      ∧ ∀ q : String, (∃ d, (q, d) ∈ downstream_impact db seed)
          ↔ (q ≠ seed ∧ ∃ d, d ≤ 20 ∧ q ∈ cteFrontier (dsNext db) seed d))
    ∧ ((∀ r ∈ upstream_dependencies db seed,
        r.2 ≤ 20 ∧ r.1 ≠ seed ∧ r.1 ∈ cteFrontier (usNext db) seed r.2
          ∧ ∀ j < r.2, r.1 ∉ cteFrontier (usNext db) seed j)
      ∧ ((upstream_dependencies db seed).map Prod.fst).Nodup
      ∧ (upstream_dependencies db seed).Pairwise (fun a b => rowLE a b = true)
      ∧ ∀ q : String, (∃ d, (q, d) ∈ upstream_dependencies db seed)
          ↔ (q ≠ seed ∧ ∃ d, d ≤ 20 ∧ q ∈ cteFrontier (usNext db) seed d)) :=
  ⟨impactResult_spec (dsNext db) seed, impactResult_spec (usNext db) seed⟩

/-- A two-program graph: `A` creates table `t`, `B` reads it. -/
def c4DB : FactDB :=
  { programs := [],
    tableOps :=
      [ { program_path := "A", table_name := "t", database_type := "work",
          operation_type := "create", source_line := 1, in_scope := 1 },
        { program_path := "B", table_name := "t", database_type := "work",
          operation_type := "read", source_line := 2, in_scope := 1 } ],
    deps := [], libnames := [] }

theorem impact_traversals_depth_capped_witness :
    (("B", 1) ∈ downstream_impact c4DB "A") ∧ (1 : Nat) ≤ 20 :=
  ⟨by decide, ((impact_traversals_depth_capped c4DB "A").1.1 ("B", 1) (by decide)).1⟩

theorem dsNext_usNext_converse (db : FactDB) :
    ∀ p q : String, q ∈ dsNext db p ↔ p ∈ usNext db q := by
  intro p q
  simp only [dsNext, usNext, List.mem_append, List.mem_flatMap, List.mem_filterMap,
    Option.ite_none_right_eq_some, Option.some.injEq]
  constructor
  · rintro (⟨w, hw, r, hr, ⟨hwp, hwc, htab, hro, hne⟩, rfl⟩ | ⟨dd, hdd, ⟨ht, hne⟩, rfl⟩)
    · exact Or.inl ⟨r, hr, w, hw,
        ⟨rfl, hro, htab.symm, hwc, by rw [hwp]; exact Ne.symm hne⟩, hwp⟩
    · exact Or.inr ⟨dd, hdd, ⟨rfl, by rw [ht]; exact Ne.symm hne⟩, ht⟩
  · rintro (⟨r, hr, w, hw, ⟨hrq, hro, htab, hwc, hne⟩, rfl⟩ | ⟨dd, hdd, ⟨hs, hne⟩, rfl⟩)
    · exact Or.inl ⟨w, hw, r, hr,
        ⟨rfl, hwc, htab.symm, hro, by rw [hrq]; exact Ne.symm hne⟩, hrq⟩
    · exact Or.inr ⟨dd, hdd, ⟨rfl, by rw [hs]; exact Ne.symm hne⟩, hs⟩

/-- C5. The two traversals are converses: whenever `B` appears (at some
depth) in the downstream impact of `A`, `A` appears in the upstream
dependencies of `B` — each downstream edge is an upstream edge read in the
opposite direction, paths reverse at equal length, and both queries use
the same depth cap. -/
theorem downstream_upstream_symmetry (db : FactDB) (A B : String)
    (h : ∃ d, (B, d) ∈ downstream_impact db A) :
    ∃ e, (A, e) ∈ upstream_dependencies db B := by
  obtain ⟨d, hd⟩ := h
  obtain ⟨hne, hmd⟩ := (mem_impactResult (dsNext db) A B d).mp hd
  obtain ⟨hmem, hle, -⟩ := minDepth_spec hmd
  have hrev : A ∈ cteFrontier (usNext db) B d :=
    (cteFrontier_reverse (dsNext db) (usNext db) (dsNext_usNext_converse db) d A B).mp hmem
  obtain ⟨e, he, -⟩ := minDepth_le_of_mem hle hrev
  exact ⟨e, (mem_impactResult (usNext db) B A e).mpr ⟨Ne.symm hne, he⟩⟩

/-- A two-program graph for the symmetry witness: `A` creates table `u`,
`B` reads it. -/
def c5DB : FactDB :=
  { programs := [],
    tableOps :=
      [ { program_path := "A", table_name := "u", database_type := "work",
          operation_type := "create", source_line := 1, in_scope := 1 },
        { program_path := "B", table_name := "u", database_type := "work",
          operation_type := "read", source_line := 2, in_scope := 1 } ],
    deps := [], libnames := [] }

theorem downstream_upstream_symmetry_witness :
    ∃ e, (("A" : String), e) ∈ upstream_dependencies c5DB "B" :=
  downstream_upstream_symmetry c5DB "A" "B" ⟨1, by decide⟩
